import Mathlib

/-!
# Verification of `exif_count` (src/exif_count/exif_count.py)

A shallow embedding of the pure logic of `exif_count.py`:

* dictionaries (Python `dict`) are modelled as insertion-ordered association
  lists `List (key × value)`;
* `make_statistic` is modelled as a function from the decoded EXIF tag
  dictionary (the `exif_result` mapping built from `img._getexif()` and
  `PIL.ExifTags.TAGS`, with every value already stringified) and the shared
  frequency table to the updated table;
* the task loop of `get_statistic_dict` is modelled as a fold over a list of
  per-file outcomes (normal completion carrying the decoded EXIF data or
  `None`, a `get` timeout — whose worker is not cancelled and still
  contributes to the returned table once the pool is joined — a
  `KeyboardInterrupt`, or any other exception);
* `plot_statistic_dict` is modelled as the per-field sort-and-label
  computation; the external chart drawing (`termplotlib`) is out of scope and
  a "chart" is the ordered list of `(label, count)` pairs handed to it;
* Python's `sorted` (a stable sort) is modelled by `List.insertionSort`,
  which is also stable, hence produces the identical list;
* `fractions.Fraction(str)`, `float(str)`, `int(str)` and
  `datetime.date.fromisoformat` are external collaborators; they are modelled
  on the literal grammars the program actually feeds them (signed integers,
  signed decimal literals, `num/den` rationals, `YYYY-MM-DD` dates), with
  numeric values represented exactly in `ℚ`/`ℤ`.
-/

namespace ExifCount

/-- The seven tracked EXIF tag names, in the order of `STATISTIC_KEYS`. -/
def STATISTIC_KEYS : List String :=
  ["DateTimeOriginal", "Model", "LensModel", "FNumber", "ExposureTime",
   "ISOSpeedRatings", "FocalLength"]

/-- A Python `dict` from strings to counts, as an insertion-ordered
association list. -/
abbrev Dict := List (String × Nat)

/-- The decoded EXIF tag dictionary `exif_result` (tag name → stringified
value). -/
abbrev ExifDict := List (String × String)

/-- The shared frequency table `shared_dict`: field name → value → count. -/
abbrev Table := List (String × Dict)

/-- Association-list lookup (Python `d[k]` / `k in d.keys()`). -/
def alookup {β : Type} : List (String × β) → String → Option β
  | [], _ => none
  | (k, v) :: rest, key => if k = key then some v else alookup rest key

/-- Python `key in d.keys()`. -/
def containsKey {β : Type} (l : List (String × β)) (key : String) : Bool :=
  (alookup l key).isSome

/-- One guarded update of `shared_dict[key]`: create the entry with count 1
if the value is absent, else add 1 (lines 58–61 of the source). -/
def dictIncrement (d : Dict) (v : String) : Dict :=
  if containsKey d v then
    d.map (fun p => if p.1 = v then (p.1, p.2 + 1) else p)
  else d ++ [(v, 1)]

/-- Update field `f` of the table by incrementing value `v` of its inner
dictionary.  A field absent from the table is left untouched (in the program
all seven fields are pre-created, so this case never arises). -/
def tableIncrement (t : Table) (f v : String) : Table :=
  t.map (fun p => if p.1 = f then (p.1, dictIncrement p.2 v) else p)

/-- The initial `shared_dict`: one empty inner dictionary per tracked field
(lines 81–82 of the source). -/
def initTable : Table := STATISTIC_KEYS.map (fun k => (k, []))

/-- The null character `"\x00"`. -/
def nullChar : Char := Char.ofNat 0

/-- `str.split(" ")[0]`: the characters before the first space. -/
def takeBeforeSpace : List Char → List Char
  | [] => []
  | c :: cs => if c = ' ' then [] else c :: takeBeforeSpace cs

/-- `str.replace(":", "-", n)`: replace the first `n` occurrences of `':'`
by `'-'`. -/
def replaceColonDash : Nat → List Char → List Char
  | _, [] => []
  | 0, cs => cs
  | n + 1, c :: cs =>
    if c = ':' then '-' :: replaceColonDash n cs
    else c :: replaceColonDash (n + 1) cs

/-- Normalization of `DateTimeOriginal` (line 51 of the source):
`str(v).split(" ")[0].replace(":", "-", 2)`. -/
def normalizeDate (s : String) : String :=
  String.mk (replaceColonDash 2 (takeBeforeSpace s.data))

/-- `str.strip("\x00")` (lines 53–55): remove leading and trailing null
characters (Python `strip` touches only the two ends of the string). -/
def stripNull (s : String) : String :=
  String.mk
    (((s.data.dropWhile (· == nullChar)).reverse.dropWhile (· == nullChar)).reverse)

/-- The normalized value stored for field `k` (lines 50–55). -/
def normValue (k v : String) : String :=
  if k = "DateTimeOriginal" then normalizeDate v else stripNull v

/-- The `for key in STATISTIC_KEYS` loop body of `make_statistic`
(lines 46–61): on the first missing key the function returns, leaving the
table as already updated; otherwise the normalized value is counted and the
loop continues. -/
def statLoop : List String → ExifDict → Table → Table
  | [], _, t => t
  | k :: ks, e, t =>
    match alookup e k with
    | none => t
    | some raw => statLoop ks e (tableIncrement t k (normValue k raw))

/-- `make_statistic` (lines 31–61), as a function of the decoded EXIF
dictionary (`none` models `img._getexif()` returning `None`) and the shared
table. -/
def make_statistic (exif : Option ExifDict) (t : Table) : Table :=
  match exif with
  | none => t
  | some e => statLoop STATISTIC_KEYS e t

/-- The `(field, value)` increments actually issued for a file: one per
tracked field in the longest prefix of `STATISTIC_KEYS` whose fields are all
present in the decoded tags. -/
def incList (e : ExifDict) : List (String × String) :=
  (STATISTIC_KEYS.takeWhile (fun k => containsKey e k)).map
    (fun k => (k, normValue k ((alookup e k).getD "")))

/-- Apply a list of `(field, value)` increments to a table. -/
def applyIncs (l : List (String × String)) (t : Table) : Table :=
  l.foldl (fun t p => tableIncrement t p.1 p.2) t

/-- The inner dictionary of field `f` (empty if the field is absent). -/
def dictOf (t : Table) (f : String) : Dict := (alookup t f).getD []

/-- The count recorded in the table for `(field, value)` (0 if absent). -/
def countOf (t : Table) (f v : String) : Nat :=
  (alookup (dictOf t f) v).getD 0

/-! ## The task loop of `get_statistic_dict` (lines 96–114)

Each submitted task has one of four outcomes, observed by `task.get(10)`:
normal completion (carrying the decoded EXIF dictionary, or `none` when
`_getexif()` returned `None`), a `multiprocessing.TimeoutError`, a
`KeyboardInterrupt`, or any other exception raised while processing the file
(e.g. `PIL.UnidentifiedImageError` on a corrupt file).

A `task.get(10)` timeout does *not* cancel the worker: the worker keeps
running `make_statistic`, and because `pool.close()`/`pool.join()`
(lines 107–108) wait for every worker before `shared_dict` is read and
converted (lines 112–114), a timed-out task's increments still land in the
frequency table the function returns.  The `timeout` outcome therefore
carries the EXIF data its worker eventually processes (`none` covers a
worker that finds no EXIF block, and also one that dies after its `get`
timed out without contributing — its stored exception is never
retrieved). -/

/-- Per-file task outcome as observed by the waiting loop, together with the
task's eventual table contribution for the timeout case. -/
inductive Outcome
  | ok (exif : Option ExifDict)
  | timeout (exif : Option ExifDict)
  | interrupt
  | err
  deriving DecidableEq

/-- Result of `get_statistic_dict`: the finished table, the sentinel `1`
returned on `KeyboardInterrupt`, or an exception propagating out of the
function. -/
inductive RunResult
  | table (t : Table)
  | interrupted
  | raised
  deriving DecidableEq

/-- Whether a run result is a frequency table. -/
def isTableResult : RunResult → Bool
  | RunResult.table _ => true
  | _ => false

/-- Table contribution of one outcome: a task that completed — normally or
after its `get` timed out, since the pool is joined before `shared_dict` is
read — has run `make_statistic`; an interrupted or failed task contributes
nothing. -/
def stepOutcome (t : Table) (o : Outcome) : Table :=
  match o with
  | Outcome.ok e => make_statistic e t
  | Outcome.timeout e => make_statistic e t
  | _ => t

/-- The `for task in tasks` waiting loop (lines 96–105) combined with the
final pool join and read of `shared_dict` (lines 107–114): a timeout prints
`TLE` and the loop continues, but the timed-out worker still contributes to
the table the function eventually returns; a `KeyboardInterrupt` terminates
the pool and returns `1`; any other exception re-raised by `task.get`
propagates.  The timed-out worker's contribution is applied at the task's
position in the list: on the one path that returns a table this yields the
same final table as any other interleaving, counting being
order-independent, and on the interrupt and error paths no table is
returned. -/
def runLoop : List Outcome → Table → RunResult
  | [], t => RunResult.table t
  | Outcome.ok e :: os, t => runLoop os (make_statistic e t)
  | Outcome.timeout e :: os, t => runLoop os (make_statistic e t)
  | Outcome.interrupt :: _, _ => RunResult.interrupted
  | Outcome.err :: _, _ => RunResult.raised

/-- `get_statistic_dict`, as a function of the per-file outcomes. -/
def get_statistic_dict (os : List Outcome) : RunResult :=
  runLoop os initTable

/-- The table accumulated by the successfully completed tasks of a run
prefix (the state of `shared_dict` at that point of the run). -/
def processTable (os : List Outcome) : Table :=
  os.foldl stepOutcome initTable

/-- Whether a completed extraction with data `e` incremented field `f`:
there is EXIF data and `f` lies in the all-present prefix of
`STATISTIC_KEYS` reached by the extraction loop. -/
def exifContributes (f : String) (e : Option ExifDict) : Bool :=
  match e with
  | some e2 => (STATISTIC_KEYS.takeWhile (fun k => containsKey e2 k)).contains f
  | none => false

/-- Whether outcome `o` contributed an increment to field `f`: the task
completed (normally, or after its `get` timed out) and its extraction
reached and counted field `f`. -/
def okContributes (f : String) (o : Outcome) : Bool :=
  match o with
  | Outcome.ok e => exifContributes f e
  | Outcome.timeout e => exifContributes f e
  | _ => false

/-- Sum of all counts recorded for field `f`. -/
def sumField (t : Table) (f : String) : Nat :=
  ((dictOf t f).map Prod.snd).sum

/-! ## Parsers (external collaborators of `plot_statistic_dict`)

`fractions.Fraction(str)`, `float(str)`, `int(str)` and
`datetime.date.fromisoformat` are modelled on the literal grammars the
program feeds them: optionally signed integer, decimal (`12.5`, `.5`, `5.`)
and rational (`1/200`) literals, and `YYYY-MM-DD` dates, with values
represented exactly in `ℚ`, `ℤ` and `ℕ × ℕ × ℕ`. -/

/-- Numeric value of a digit character. -/
def digitVal (c : Char) : Nat := c.toNat - 48

/-- Value of a list of decimal digits. -/
def digitsToNat (l : List Char) : Nat :=
  l.foldl (fun a c => a * 10 + digitVal c) 0

/-- Nonempty and all decimal digits. -/
def isDigits (l : List Char) : Bool := !l.isEmpty && l.all Char.isDigit

/-- Strip an optional leading sign, returning the sign as `±1`. -/
def splitSign : List Char → Int × List Char
  | '-' :: r => (-1, r)
  | '+' :: r => (1, r)
  | r => (1, r)

/-- Signed decimal literal after sign removal: `digits`, `digits.digits`,
`.digits` or `digits.` (at least one digit overall). -/
def parseDecimalAux (sg : Int) (rest : List Char) : Option ℚ :=
  if rest.contains '.' then
    let ip := rest.takeWhile (fun c => c != '.')
    let fp := (rest.dropWhile (fun c => c != '.')).tail
    if ip.all Char.isDigit && fp.all Char.isDigit && !(ip.isEmpty && fp.isEmpty) then
      some ((sg : ℚ) * ((digitsToNat ip : ℚ) + (digitsToNat fp : ℚ) / (10 : ℚ) ^ fp.length))
    else none
  else if isDigits rest then some ((sg : ℚ) * (digitsToNat rest : ℚ))
  else none

/-- `float(str)` on the decimal literals the program feeds it, with the
value represented exactly in `ℚ`. -/
def parseFloat (s : String) : Option ℚ :=
  parseDecimalAux (splitSign s.data).1 (splitSign s.data).2

/-- `fractions.Fraction(str)`: a decimal literal or `numerator/denominator`
with a nonzero denominator. -/
def parseFraction (s : String) : Option ℚ :=
  let sg := (splitSign s.data).1
  let rest := (splitSign s.data).2
  if rest.contains '/' then
    let num := rest.takeWhile (fun c => c != '/')
    let den := (rest.dropWhile (fun c => c != '/')).tail
    if isDigits num && isDigits den && digitsToNat den != 0 then
      some ((sg : ℚ) * (digitsToNat num : ℚ) / (digitsToNat den : ℚ))
    else none
  else parseDecimalAux sg rest

/-- `int(str)`: optionally signed digits. -/
def parseInt (s : String) : Option Int :=
  if isDigits (splitSign s.data).2 then
    some ((splitSign s.data).1 * (digitsToNat (splitSign s.data).2 : Int))
  else none

/-- Days in a month (Gregorian calendar, as `datetime.date` validates). -/
def daysInMonth (y m : Nat) : Nat :=
  if m = 2 then (if (y % 4 = 0 && y % 100 != 0) || y % 400 = 0 then 29 else 28)
  else if m = 4 || m = 6 || m = 9 || m = 11 then 30 else 31

/-- `datetime.date.fromisoformat` on the canonical `YYYY-MM-DD` form,
validating the ranges `datetime.date` enforces. -/
def parseDate (s : String) : Option (Nat × Nat × Nat) :=
  match s.data with
  | [y1, y2, y3, y4, c1, m1, m2, c2, d1, d2] =>
    if [y1, y2, y3, y4, m1, m2, d1, d2].all Char.isDigit && c1 == '-' && c2 == '-' then
      let y := digitsToNat [y1, y2, y3, y4]
      let m := digitsToNat [m1, m2]
      let d := digitsToNat [d1, d2]
      if 1 ≤ y && y ≤ 9999 && 1 ≤ m && m ≤ 12 && 1 ≤ d && d ≤ daysInMonth y m then
        some (y, m, d)
      else none
    else none
  | _ => none

/-- Chronological (lexicographic year, month, day) order on calendar dates,
the order of Python `datetime.date`. -/
def dateLe (a b : Nat × Nat × Nat) : Prop :=
  a.1 < b.1 ∨ (a.1 = b.1 ∧ (a.2.1 < b.2.1 ∨ (a.2.1 = b.2.1 ∧ a.2.2 ≤ b.2.2)))

instance : DecidableRel dateLe := fun a b => by
  unfold dateLe; infer_instance

instance : IsTrans (Nat × Nat × Nat) dateLe :=
  ⟨by
    intro a b c h1 h2
    obtain ⟨y1, m1, d1⟩ := a; obtain ⟨y2, m2, d2⟩ := b; obtain ⟨y3, m3, d3⟩ := c
    simp only [dateLe] at h1 h2 ⊢
    omega⟩

instance : IsTotal (Nat × Nat × Nat) dateLe :=
  ⟨by
    intro a b
    obtain ⟨y1, m1, d1⟩ := a; obtain ⟨y2, m2, d2⟩ := b
    simp only [dateLe]
    omega⟩

/-! ## `Fraction.limit_denominator` and fraction display

`f"{Fraction(v).limit_denominator()}"` (line 135 of the source).
`limit_denominator` is CPython's continued-fraction best-approximation
algorithm with `max_denominator = 1000000`; the Python `while True` loop is
given explicit fuel (the loop divides `n` by `d` and continues with
`d, n - a*d`, so `q.den` steps always suffice; the extra `d = 0` guard is
unreachable for the inputs the program produces, because the expansion is
cut off as soon as a convergent denominator would exceed the bound). -/

/-- The `while True` loop of `Fraction.limit_denominator`.  State:
convergent numerators/denominators `p0, q0, p1, q1` and the Euclidean pair
`n, d` (Python `a = n // d` is `Int.fdiv`); `maxd` is the denominator
bound. -/
def ldLoop : Nat → Int → Int → Int → Int → Int → Int → Int → Int × Int × Int × Int
  | 0, p0, q0, p1, q1, _, _, _ => (p0, q0, p1, q1)
  | fuel + 1, p0, q0, p1, q1, n, d, maxd =>
    if d = 0 then (p0, q0, p1, q1)
    else if maxd < q0 + (Int.fdiv n d) * q1 then (p0, q0, p1, q1)
    else ldLoop fuel p1 q1 (p0 + (Int.fdiv n d) * p1) (q0 + (Int.fdiv n d) * q1)
      d (n - (Int.fdiv n d) * d) maxd

/-- The Python `k = (max_denominator - q0) // q1` of `limit_denominator`. -/
def ldK (r : Int × Int × Int × Int) : Int :=
  Int.fdiv (1000000 - r.2.1) r.2.2.2

/-- `bound1 = Fraction(p0 + k*p1, q0 + k*q1)` of `limit_denominator`. -/
def ldBound1 (r : Int × Int × Int × Int) : ℚ :=
  ((r.1 + ldK r * r.2.2.1 : Int) : ℚ) / ((r.2.1 + ldK r * r.2.2.2 : Int) : ℚ)

/-- `bound2 = Fraction(p1, q1)` of `limit_denominator`. -/
def ldBound2 (r : Int × Int × Int × Int) : ℚ :=
  (r.2.2.1 : ℚ) / (r.2.2.2 : ℚ)

/-- The final bound selection of `limit_denominator`. -/
def limitDenomCore (q : ℚ) (r : Int × Int × Int × Int) : ℚ :=
  if |ldBound2 r - q| ≤ |ldBound1 r - q| then ldBound2 r else ldBound1 r

/-- `Fraction.limit_denominator(1000000)`.  The `while` loop is run with
`q.den` units of fuel, which always suffice (each iteration strictly
decreases the Euclidean remainder `d`). -/
def limit_denominator (q : ℚ) : ℚ :=
  if (q.den : Int) ≤ 1000000 then q
  else limitDenomCore q (ldLoop q.den 0 1 1 0 q.num (q.den : Int) 1000000)

/-- Decimal digit character. -/
def digitChar (n : Nat) : Char := Char.ofNat (48 + n)

/-- Decimal digits of `n` (with fuel; `n + 1` units always suffice). -/
def natDigits : Nat → Nat → List Char
  | 0, _ => []
  | fuel + 1, n =>
    if n < 10 then [digitChar n]
    else natDigits fuel (n / 10) ++ [digitChar (n % 10)]

/-- Decimal rendering of a natural number. -/
def natToString (n : Nat) : String := String.mk (natDigits (n + 1) n)

/-- Decimal rendering of an integer (Python `str`). -/
def intToString (i : Int) : String :=
  if i < 0 then "-" ++ natToString i.natAbs else natToString i.toNat

/-- Python `str(Fraction)` / `f"{Fraction}"`: `num/den`, or just `num` when
the denominator is 1 (`Fraction` is always stored in lowest terms, as `ℚ`
is). -/
def showFraction (q : ℚ) : String :=
  if q.den = 1 then intToString q.num
  else intToString q.num ++ "/" ++ natToString q.den

/-! ## `plot_statistic_dict` (lines 117–138)

For each field, `sorted(items, key=sort_lambda)` first applies the key
function to every item (raising on the first unparseable value, in
insertion order), then stably sorts; `(keys, values) = zip(*sorted_items)`
additionally raises on an empty field dictionary.  A "chart" is the ordered
list of `(label, count)` pairs handed to `termplotlib`; `none` models an
exception escaping `plot_statistic_dict`. -/

/-- Apply the sort key to every item (`sorted` evaluates the key function on
each element, in order, before sorting; it raises at the first unparseable
value). -/
def decorate {κ : Type} (parse : String → Option κ) :
    List (String × Nat) → Option (List (κ × String × Nat))
  | [] => some []
  | it :: rest =>
    match parse it.1 with
    | none => none
    | some key => (decorate parse rest).map (fun dec => (key, it) :: dec)

/-- Sort-and-label for one field: decorate with the sort key, sort stably in
ascending key order, then render each item's label. -/
def chartOf {κ : Type} (le : κ → κ → Prop) [DecidableRel le]
    (parse : String → Option κ) (relabel : κ → String → String)
    (items : List (String × Nat)) : Option (List (String × Nat)) :=
  match decorate parse items with
  | none => none
  | some dec =>
    if dec.isEmpty then none
    else
      some ((List.insertionSort (fun a b => le a.1 b.1) dec).map
        (fun p => (relabel p.1 p.2.1, p.2.2)))

/-- The per-field chart computation, selecting the sort key exactly as the
`if`/`elif` chain at lines 120–128 does and relabelling `ExposureTime`
values as at line 135. -/
def plotField (k : String) (items : List (String × Nat)) :
    Option (List (String × Nat)) :=
  if k = "ExposureTime" then
    chartOf (fun a b : ℚ => a ≤ b) parseFraction
      (fun q _ => showFraction (limit_denominator q)) items
  else if k = "FNumber" ∨ k = "FocalLength" then
    chartOf (fun a b : ℚ => a ≤ b) parseFloat (fun _ v => v) items
  else if k = "ISOSpeedRatings" then
    chartOf (fun a b : Int => a ≤ b) parseInt (fun _ v => v) items
  else if k = "DateTimeOriginal" then
    chartOf dateLe parseDate (fun _ v => v) items
  else
    chartOf (fun a b : String => a ≤ b) some (fun _ v => v) items

/-- `plot_statistic_dict`: iterate the fields in table order, emitting one
chart per field until the first exception; the second component records
whether an exception escaped. -/
def plot_statistic_dict : Table → List (List (String × Nat)) × Bool
  | [] => ([], false)
  | (k, d) :: rest =>
    match plotField k d with
    | none => ([], true)
    | some ch =>
      let r := plot_statistic_dict rest
      (ch :: r.1, r.2)

/-- The rendering decision of `cli` (lines 168–169): plot only when the
`DateTimeOriginal` field has at least one entry. -/
def cliRender (t : Table) : Option (List (List (String × Nat)) × Bool) :=
  if 0 < (dictOf t "DateTimeOriginal").length then some (plot_statistic_dict t)
  else none

/-- Number of increments issued for `(field, value)` in a list of
increments. -/
def incCount (l : List (String × String)) (f v : String) : Nat :=
  l.countP (fun p => p.1 == f && p.2 == v)

/-- Sum of the counts of a dictionary. -/
def sumDict (d : Dict) : Nat := (d.map Prod.snd).sum

/-! ## Association-list lemmas -/

theorem alookup_map_update {β : Type} (l : List (String × β)) (v : String)
    (g : β → β) (w : String) :
    alookup (l.map (fun p => if p.1 = v then (p.1, g p.2) else p)) w
      = if w = v then (alookup l v).map g else alookup l w := by
  induction l with
  | nil => by_cases h : w = v <;> simp [alookup, h]
  | cons p rest ih =>
    obtain ⟨k, n⟩ := p
    simp only [List.map_cons]
    by_cases hkv : k = v
    · rw [if_pos hkv]
      subst hkv
      by_cases hwk : w = k
      · subst hwk
        simp [alookup, ih]
      · have hkw : ¬(k = w) := fun h => hwk h.symm
        simp [alookup, hkw, hwk, ih]
    · rw [if_neg hkv]
      by_cases hkw : k = w
      · subst hkw
        simp [alookup, hkv, ih]
      · simp [alookup, hkv, hkw, ih]

theorem alookup_append {β : Type} (l1 l2 : List (String × β)) (k : String) :
    alookup (l1 ++ l2) k = (alookup l1 k).or (alookup l2 k) := by
  induction l1 with
  | nil => simp [alookup]
  | cons p rest ih =>
    by_cases h : p.1 = k <;> simp [alookup, h, ih]

theorem alookup_eq_none_iff {β : Type} (l : List (String × β)) (k : String) :
    alookup l k = none ↔ k ∉ l.map Prod.fst := by
  induction l with
  | nil => simp [alookup]
  | cons p rest ih =>
    by_cases h : p.1 = k
    · simp [alookup, h, ih]
      try tauto
    · simp [alookup, h, ih]
      try tauto

theorem alookup_dict_map_incr (d : Dict) (v w : String) :
    alookup (d.map (fun p => if p.1 = v then (p.1, p.2 + 1) else p)) w
      = if w = v then (alookup d v).map (fun n => n + 1) else alookup d w :=
  alookup_map_update d v (fun n => n + 1) w

theorem alookup_dictIncrement (d : Dict) (v w : String) :
    alookup (dictIncrement d v) w
      = if w = v then some ((alookup d v).getD 0 + 1) else alookup d w := by
  by_cases h : containsKey d v
  · obtain ⟨n, hn⟩ := Option.isSome_iff_exists.mp h
    simp only [dictIncrement, h, if_true, alookup_dict_map_incr, hn]
    by_cases hwv : w = v <;> simp [hwv, hn]
  · have hnone : alookup d v = none := by
      cases hv : alookup d v with
      | none => rfl
      | some x => exact absurd (by simp [containsKey, hv]) h
    have hfalse : containsKey d v = false := by
      cases hc : containsKey d v
      · rfl
      · exact absurd hc h
    simp only [dictIncrement, hfalse, Bool.false_eq_true, if_false]
    by_cases hwv : w = v
    · subst hwv
      rw [alookup_append, hnone]
      simp [alookup, hnone]
    · have hvw : ¬(v = w) := fun hh => hwv hh.symm
      rw [alookup_append]
      simp [alookup, hvw, hwv]

theorem alookup_tableIncrement (t : Table) (f v g : String) :
    alookup (tableIncrement t f v) g
      = if g = f then (alookup t f).map (fun d => dictIncrement d v)
        else alookup t g :=
  alookup_map_update t f (fun d => dictIncrement d v) g

theorem containsKey_tableIncrement (t : Table) (f v g : String) :
    containsKey (tableIncrement t f v) g = containsKey t g := by
  simp only [containsKey, alookup_tableIncrement]
  by_cases h : g = f <;> simp [h]

theorem applyIncs_cons (p : String × String) (l : List (String × String))
    (t : Table) :
    applyIncs (p :: l) t = applyIncs l (tableIncrement t p.1 p.2) := rfl

theorem containsKey_applyIncs (l : List (String × String)) (t : Table)
    (g : String) : containsKey (applyIncs l t) g = containsKey t g := by
  induction l generalizing t with
  | nil => rfl
  | cons p rest ih => rw [applyIncs_cons, ih, containsKey_tableIncrement]

/-! ## The extraction loop counts exactly the all-present prefix -/

theorem statLoop_eq_applyIncs (ks : List String) (e : ExifDict) (t : Table) :
    statLoop ks e t
      = applyIncs ((ks.takeWhile (fun k => containsKey e k)).map
          (fun k => (k, normValue k ((alookup e k).getD "")))) t := by
  induction ks generalizing t with
  | nil => rfl
  | cons k rest ih =>
    cases he : alookup e k with
    | none =>
      have hc : containsKey e k = false := by simp [containsKey, he]
      simp [statLoop, he, List.takeWhile_cons, hc, applyIncs]
    | some raw =>
      have hc : containsKey e k = true := by simp [containsKey, he]
      simp only [statLoop, he, List.takeWhile_cons, hc, if_true, List.map_cons]
      rw [applyIncs_cons, ih]
      simp [he]

theorem make_statistic_some (e : ExifDict) (t : Table) :
    make_statistic (some e) t = applyIncs (incList e) t :=
  statLoop_eq_applyIncs STATISTIC_KEYS e t

theorem countOf_tableIncrement (t : Table) (f v g w : String) :
    countOf (tableIncrement t f v) g w
      = countOf t g w
        + (if g = f ∧ w = v ∧ containsKey t f then 1 else 0) := by
  unfold countOf dictOf
  rw [alookup_tableIncrement]
  by_cases hgf : g = f
  · subst hgf
    cases hf : alookup t g with
    | none =>
      have : containsKey t g = false := by simp [containsKey, hf]
      simp [this]
    | some d =>
      have hc : containsKey t g = true := by simp [containsKey, hf]
      simp only [if_pos rfl, hf, Option.map_some, Option.getD_some,
        alookup_dictIncrement, hc]
      by_cases hwv : w = v
      · simp [hwv, alookup_dictIncrement]
      · simp [hwv, alookup_dictIncrement]
  · simp [hgf]

theorem countOf_applyIncs (l : List (String × String)) (t : Table)
    (f v : String) (hf : containsKey t f = true) :
    countOf (applyIncs l t) f v = countOf t f v + incCount l f v := by
  induction l generalizing t with
  | nil => simp [applyIncs, incCount]
  | cons p rest ih =>
    rw [applyIncs_cons, ih (tableIncrement t p.1 p.2)
      (by rw [containsKey_tableIncrement]; exact hf)]
    rw [countOf_tableIncrement]
    have hcount : incCount (p :: rest) f v
        = incCount rest f v + (if p.1 == f && p.2 == v then 1 else 0) := by
      simp [incCount, List.countP_cons]
    rw [hcount]
    by_cases h1 : f = p.1
    · subst h1
      by_cases h2 : v = p.2
      · subst h2
        simp [hf]
        omega
      · have hb : (p.2 == v) = false := by
          simp only [beq_eq_false_iff_ne, ne_eq]
          exact fun hh => h2 hh.symm
        simp [h2, hb]
    · have hb : (p.1 == f) = false := by
        simp only [beq_eq_false_iff_ne, ne_eq]
        exact fun hh => h1 hh.symm
      simp [h1, hb]

theorem alookup_applyIncs_none (l : List (String × String)) (t : Table)
    (f : String) (hf : alookup t f = none) :
    alookup (applyIncs l t) f = none := by
  have := containsKey_applyIncs l t f
  simp only [containsKey, hf] at this
  cases h : alookup (applyIncs l t) f with
  | none => rfl
  | some d => rw [h] at this; simp at this

theorem alookup_applyIncs_untouched (l : List (String × String)) (t : Table)
    (g : String) (hg : ∀ p ∈ l, p.1 ≠ g) :
    alookup (applyIncs l t) g = alookup t g := by
  induction l generalizing t with
  | nil => rfl
  | cons p rest ih =>
    rw [applyIncs_cons, ih _ (fun q hq => hg q (List.mem_cons_of_mem p hq))]
    rw [alookup_tableIncrement]
    have : ¬(g = p.1) := fun h => hg p (List.mem_cons_self p rest) h.symm
    simp [this]

/-! ## The initial table -/

theorem alookup_initTable_aux (ks : List String) (f : String) :
    ((alookup (ks.map (fun k => (k, ([] : Dict)))) f).getD []) = [] := by
  induction ks with
  | nil => simp [alookup]
  | cons k rest ih =>
    by_cases h : k = f <;> simp [alookup, h, ih]

theorem dictOf_initTable (f : String) : dictOf initTable f = [] :=
  alookup_initTable_aux STATISTIC_KEYS f

theorem countOf_initTable (f v : String) : countOf initTable f v = 0 := by
  unfold countOf
  rw [dictOf_initTable]
  simp [alookup]

theorem containsKey_initTable (f : String) (hf : f ∈ STATISTIC_KEYS) :
    containsKey initTable f = true := by
  fin_cases hf <;> decide

theorem countP_eq_single (l : List String) (hl : l.Nodup) (f : String)
    (q : String → Bool) :
    l.countP (fun k => k == f && q k) = if f ∈ l ∧ q f = true then 1 else 0 := by
  induction l with
  | nil => simp
  | cons a rest ih =>
    rw [List.countP_cons]
    have hrest := ih (List.Nodup.of_cons hl)
    by_cases haf : a = f
    · subst haf
      have hnot : a ∉ rest := (List.nodup_cons.mp hl).1
      have hzero : rest.countP (fun k => k == a && q k) = 0 :=
        List.countP_eq_zero.mpr (fun b hb => by
          simp only [Bool.and_eq_true, beq_iff_eq, not_and]
          intro hba
          exact absurd (hba ▸ hb) hnot)
      rw [hzero]
      by_cases hq : q a = true
      · simp [hq]
      · simp [hq]
    · have hb : (a == f && q a) = false := by
        simp only [Bool.and_eq_false_iff, beq_eq_false_iff_ne, ne_eq]
        exact Or.inl haf
      rw [hb, hrest]
      by_cases hm : f ∈ rest ∧ q f = true
      · simp [hm, List.mem_cons, hm.1]
      · have hno : ¬(f ∈ a :: rest ∧ q f = true) := by
          rintro ⟨h1, h2⟩
          rcases List.mem_cons.mp h1 with h | h
          · exact haf h.symm
          · exact hm ⟨h, h2⟩
        rw [if_neg hm, if_neg hno]
        simp

theorem nodup_takeWhile_keys (e : ExifDict) :
    (STATISTIC_KEYS.takeWhile (fun k => containsKey e k)).Nodup :=
  (List.takeWhile_sublist _).nodup (by decide)

theorem incCount_incList (e : ExifDict) (f v : String) :
    incCount (incList e) f v
      = if f ∈ STATISTIC_KEYS.takeWhile (fun k => containsKey e k)
          ∧ (normValue f ((alookup e f).getD "") == v) = true then 1 else 0 := by
  unfold incCount incList
  rw [List.countP_map]
  exact countP_eq_single _ (nodup_takeWhile_keys e) f
    (fun k => normValue k ((alookup e k).getD "") == v)

theorem takeWhile_keys_capture (e : ExifDict)
    (hc : containsKey e "DateTimeOriginal" = true) :
    STATISTIC_KEYS.takeWhile (fun k => containsKey e k)
      = "DateTimeOriginal"
        :: (["Model", "LensModel", "FNumber", "ExposureTime",
             "ISOSpeedRatings", "FocalLength"].takeWhile
              (fun k => containsKey e k)) := by
  show List.takeWhile _ ("DateTimeOriginal" :: _) = _
  rw [List.takeWhile_cons, hc]
  simp

theorem incCount_capture (e : ExifDict) (raw : String)
    (he : alookup e "DateTimeOriginal" = some raw) :
    incCount (incList e) "DateTimeOriginal" (normalizeDate raw) = 1 := by
  have hc : containsKey e "DateTimeOriginal" = true := by
    simp [containsKey, he]
  rw [incCount_incList]
  have hmem : "DateTimeOriginal"
      ∈ STATISTIC_KEYS.takeWhile (fun k => containsKey e k) := by
    rw [takeWhile_keys_capture e hc]
    exact List.mem_cons_self _ _
  have hval : (normValue "DateTimeOriginal"
      ((alookup e "DateTimeOriginal").getD "") == normalizeDate raw) = true := by
    rw [he]
    simp [normValue]
  simp [hmem, hval]

/-! ## String normalization lemmas -/

theorem takeBeforeSpace_eq_takeWhile (l : List Char) :
    takeBeforeSpace l = l.takeWhile (fun c => c != ' ') := by
  induction l with
  | nil => rfl
  | cons c cs ih =>
    by_cases h : c = ' '
    · subst h
      simp [takeBeforeSpace, List.takeWhile_cons]
    · have hbne : (c != ' ') = true := by simp [h]
      simp [takeBeforeSpace, h, List.takeWhile_cons, hbne, ih]

theorem replaceColonDash_zero (cs : List Char) : replaceColonDash 0 cs = cs := by
  cases cs <;> rfl

theorem replaceColonDash_succ_colon (n : Nat) (cs : List Char) :
    replaceColonDash (n + 1) (':' :: cs) = '-' :: replaceColonDash n cs := by
  simp [replaceColonDash]

theorem replaceColonDash_succ_other (n : Nat) (c : Char) (cs : List Char)
    (h : c ≠ ':') :
    replaceColonDash (n + 1) (c :: cs) = c :: replaceColonDash (n + 1) cs := by
  simp [replaceColonDash, h]

theorem replaceColonDash_one (b c : List Char) (hb : ∀ x ∈ b, x ≠ ':') :
    replaceColonDash 1 (b ++ ':' :: c) = b ++ '-' :: c := by
  induction b with
  | nil =>
    simp only [List.nil_append]
    have h1 : replaceColonDash 1 (':' :: c) = '-' :: replaceColonDash 0 c :=
      replaceColonDash_succ_colon 0 c
    rw [h1, replaceColonDash_zero]
  | cons x xs ih =>
    have hx : x ≠ ':' := hb x (List.mem_cons_self x xs)
    simp only [List.cons_append]
    have h1 : replaceColonDash 1 (x :: (xs ++ ':' :: c))
        = x :: replaceColonDash 1 (xs ++ ':' :: c) :=
      replaceColonDash_succ_other 0 x _ hx
    rw [h1, ih (fun y hy => hb y (List.mem_cons_of_mem x hy))]

theorem replaceColonDash_two (a b c : List Char)
    (ha : ∀ x ∈ a, x ≠ ':') (hb : ∀ x ∈ b, x ≠ ':') :
    replaceColonDash 2 (a ++ (':' :: (b ++ (':' :: c))))
      = a ++ ('-' :: (b ++ ('-' :: c))) := by
  induction a with
  | nil =>
    simp only [List.nil_append]
    have h2 : replaceColonDash 2 (':' :: (b ++ ':' :: c))
        = '-' :: replaceColonDash 1 (b ++ ':' :: c) :=
      replaceColonDash_succ_colon 1 (b ++ ':' :: c)
    rw [h2, replaceColonDash_one b c hb]
  | cons x xs ih =>
    have hx : x ≠ ':' := ha x (List.mem_cons_self x xs)
    simp only [List.cons_append]
    have h2 : replaceColonDash 2 (x :: (xs ++ (':' :: (b ++ (':' :: c)))))
        = x :: replaceColonDash 2 (xs ++ (':' :: (b ++ (':' :: c)))) :=
      replaceColonDash_succ_other 1 x _ hx
    rw [h2, ih (fun y hy => ha y (List.mem_cons_of_mem x hy))]

/-! ## Claims C1, C3, C5 -/

/-- Claim C1, counterexample: a file whose metadata block is present but
which lacks `Model` (and every other later tracked field) still contributes
one count to `DateTimeOriginal`.  The extraction loop of `make_statistic`
increments a field as soon as it is seen and only returns at the first
missing key, so the skip is not all-or-nothing: fields preceding the first
missing one are already counted. -/
theorem c1_counterexample :
    containsKey ([("DateTimeOriginal", "2023:05:01 12:30:00")] : ExifDict)
        "Model" = false ∧
    countOf
        (make_statistic (some [("DateTimeOriginal", "2023:05:01 12:30:00")])
          initTable)
        "DateTimeOriginal" "2023-05-01" = 1 := by
  decide

/-- Claim C1, amended: for a file whose metadata block is present,
extraction returns nothing, and the file contributes exactly one count per
tracked field in the longest all-present prefix of `STATISTIC_KEYS`;
every field at or beyond the first missing key is left untouched. -/
theorem c1_amended_prefix_counting (e : ExifDict) (t : Table) :
    make_statistic (some e) t = applyIncs (incList e) t ∧
    (∀ g, g ∉ STATISTIC_KEYS.takeWhile (fun k => containsKey e k) →
      alookup (make_statistic (some e) t) g = alookup t g) := by
  constructor
  · exact make_statistic_some e t
  · intro g hg
    rw [make_statistic_some]
    apply alookup_applyIncs_untouched
    intro p hp
    obtain ⟨k, hk, rfl⟩ := List.mem_map.mp hp
    exact fun h => hg (h ▸ hk)

/-- Witness for `c1_amended_prefix_counting` at a concrete file lacking `Model`. -/
theorem c1_amended_witness :
    alookup
        (make_statistic (some [("DateTimeOriginal", "2023:05:01 12:30:00")])
          initTable) "Model"
      = alookup initTable "Model" :=
  (c1_amended_prefix_counting [("DateTimeOriginal", "2023:05:01 12:30:00")] initTable).2
    "Model" (by decide)

/-- Claim C3: `increment(field, value)` creates the entry with count 1 when
absent and adds 1 otherwise; consequently the final count of every
`(field, value)` key equals the number of increments issued for it, and the
final table is, as a mapping, identical for every permutation of the
increment order. -/
theorem c3_increment_order_independent :
    (∀ d v, (alookup d v = none → alookup (dictIncrement d v) v = some 1) ∧
      (∀ n, alookup d v = some n → alookup (dictIncrement d v) v = some (n + 1))) ∧
    (∀ l f v, f ∈ STATISTIC_KEYS →
      countOf (applyIncs l initTable) f v = incCount l f v) ∧
    (∀ l l', List.Perm l l' → ∀ f v,
      countOf (applyIncs l initTable) f v
        = countOf (applyIncs l' initTable) f v) := by
  refine ⟨?_, ?_, ?_⟩
  · intro d v
    constructor
    · intro h
      rw [alookup_dictIncrement]
      simp [h]
    · intro n h
      rw [alookup_dictIncrement]
      simp [h]
  · intro l f v hf
    rw [countOf_applyIncs l initTable f v (containsKey_initTable f hf),
      countOf_initTable]
    exact Nat.zero_add _
  · intro l l' hperm f v
    by_cases hf : containsKey initTable f = true
    · rw [countOf_applyIncs _ _ _ _ hf, countOf_applyIncs _ _ _ _ hf]
      unfold incCount
      rw [hperm.countP_eq]
    · have hnone : alookup initTable f = none := by
        cases h : alookup initTable f with
        | none => rfl
        | some d => exact absurd (by simp [containsKey, h]) hf
      unfold countOf dictOf
      rw [alookup_applyIncs_none _ _ _ hnone, alookup_applyIncs_none _ _ _ hnone]

/-- Witness for `c3_increment_order_independent`: two increments of the same
key yield count 2, and a permutation of a two-element increment list leaves
every count unchanged. -/
theorem c3_witness :
    countOf (applyIncs [("Model", "X"), ("Model", "X")] initTable) "Model" "X"
      = incCount [("Model", "X"), ("Model", "X")] "Model" "X" ∧
    countOf
        (applyIncs [("Model", "X"), ("LensModel", "Y")] initTable) "Model" "X"
      = countOf
        (applyIncs [("LensModel", "Y"), ("Model", "X")] initTable) "Model" "X" :=
  ⟨c3_increment_order_independent.2.1 [("Model", "X"), ("Model", "X")]
      "Model" "X" (by decide),
    c3_increment_order_independent.2.2 _ _ (List.Perm.swap _ _ _) "Model" "X"⟩

/-- Claim C5: the stored `DateTimeOriginal` value is the raw tag value
normalized by keeping only the portion before the first space and replacing
the first two `':'` separators (and only those) by `'-'`; in particular
`"2023:05:01 12:30:00"` normalizes to `"2023-05-01"`. -/
theorem c5_capture_date_normalization :
    (∀ e t raw, alookup e "DateTimeOriginal" = some raw →
        containsKey t "DateTimeOriginal" = true →
        countOf (make_statistic (some e) t) "DateTimeOriginal"
            (normalizeDate raw)
          = countOf t "DateTimeOriginal" (normalizeDate raw) + 1) ∧
    (∀ s : String, takeBeforeSpace s.data
        = s.data.takeWhile (fun c => c != ' ')) ∧
    (∀ a b c : List Char, (∀ x ∈ a, x ≠ ':') → (∀ x ∈ b, x ≠ ':') →
        replaceColonDash 2 (a ++ (':' :: (b ++ (':' :: c))))
          = a ++ ('-' :: (b ++ ('-' :: c)))) ∧
    normalizeDate "2023:05:01 12:30:00" = "2023-05-01" := by
  refine ⟨?_, ?_, ?_, ?_⟩
  · intro e t raw he hct
    rw [make_statistic_some, countOf_applyIncs _ _ _ _ hct,
      incCount_capture e raw he]
  · intro s
    exact takeBeforeSpace_eq_takeWhile s.data
  · exact replaceColonDash_two
  · decide

/-- Witness for `c5_capture_date_normalization` at the concrete input of the
spec. -/
theorem c5_witness :
    countOf
        (make_statistic (some [("DateTimeOriginal", "2023:05:01 12:30:00")])
          initTable)
        "DateTimeOriginal" (normalizeDate "2023:05:01 12:30:00")
      = countOf initTable "DateTimeOriginal"
          (normalizeDate "2023:05:01 12:30:00") + 1 :=
  c5_capture_date_normalization.1 [("DateTimeOriginal", "2023:05:01 12:30:00")]
    initTable "2023:05:01 12:30:00" (by decide) (by decide)

/-! ## Claim C2: error propagation in the task loop -/

/-- Claim C2, counterexample: a single file whose extraction raises an
ordinary exception (corrupt data, unreadable file) aborts the run.  The
waiting loop catches only `multiprocessing.TimeoutError` and
`KeyboardInterrupt`; any other exception re-raised by `task.get` propagates
out of `get_statistic_dict`, so no frequency table is returned. -/
theorem c2_counterexample :
    get_statistic_dict [Outcome.err] = RunResult.raised ∧
    isTableResult (get_statistic_dict [Outcome.err]) = false := by
  decide

/-- Claim C2, amended: a file whose extraction fails with an error (corrupt
data, unreadable file) DOES abort the run — the exception re-raised by
`task.get` propagates out of `get_statistic_dict` and no frequency table is
returned, because the waiting loop catches only
`multiprocessing.TimeoutError` (notice printed, waiting continues, and the
timed-out worker's counts still reach the returned table since the pool is
joined before `shared_dict` is read) and `KeyboardInterrupt` (sentinel `1`);
a run none of whose tasks errors or is interrupted returns the frequency
table accumulated by all its completed tasks. -/
theorem c2_amended (os : List Outcome) (t : Table) :
    ((∀ o ∈ os, o ≠ Outcome.err ∧ o ≠ Outcome.interrupt) →
      runLoop os t = RunResult.table (os.foldl stepOutcome t)) ∧
    (∀ pre rest, os = pre ++ Outcome.err :: rest →
      (∀ o ∈ pre, o ≠ Outcome.err ∧ o ≠ Outcome.interrupt) →
      runLoop os t = RunResult.raised) := by
  refine ⟨?_, ?_⟩
  · intro hos
    induction os generalizing t with
    | nil => rfl
    | cons o os ih =>
      have ho := hos o (List.mem_cons_self o os)
      have hos' : ∀ o ∈ os, o ≠ Outcome.err ∧ o ≠ Outcome.interrupt :=
        fun o ho => hos o (List.mem_cons_of_mem _ ho)
      cases o with
      | ok e => exact ih (make_statistic e t) hos'
      | timeout e => exact ih (make_statistic e t) hos'
      | interrupt => exact absurd rfl ho.2
      | err => exact absurd rfl ho.1
  · intro pre rest hos hpre
    subst hos
    induction pre generalizing t with
    | nil => rfl
    | cons o pre ih =>
      have ho := hpre o (List.mem_cons_self o pre)
      have hpre' : ∀ o ∈ pre, o ≠ Outcome.err ∧ o ≠ Outcome.interrupt :=
        fun o h => hpre o (List.mem_cons_of_mem _ h)
      cases o with
      | ok e => exact ih (make_statistic e t) hpre'
      | timeout e => exact ih (make_statistic e t) hpre'
      | interrupt => exact absurd rfl ho.2
      | err => exact absurd rfl ho.1

/-- Witness for `c2_amended`: a run of one timed-out file (which still
contributes) and one completed file returns the accumulated table, and a run
hitting an extraction error after a timeout raises. -/
theorem c2_amended_witness :
    runLoop [Outcome.timeout (some [("DateTimeOriginal", "d")]),
        Outcome.ok none] initTable
      = RunResult.table
          ([Outcome.timeout (some [("DateTimeOriginal", "d")]),
            Outcome.ok none].foldl stepOutcome initTable) ∧
    runLoop [Outcome.timeout none, Outcome.err] initTable
      = RunResult.raised :=
  ⟨(c2_amended [Outcome.timeout (some [("DateTimeOriginal", "d")]),
      Outcome.ok none] initTable).1 (by decide),
    (c2_amended [Outcome.timeout none, Outcome.err] initTable).2
      [Outcome.timeout none] [] rfl (by decide)⟩

/-! ## Claim C8: table invariants

`DictInv` is the invariant every inner dictionary of `shared_dict`
maintains: every stored count is at least 1 and the value keys are distinct
(a Python `dict` cannot hold duplicate keys). -/

/-- Invariant of one inner dictionary. -/
def DictInv (d : Dict) : Prop :=
  (∀ v n, alookup d v = some n → 1 ≤ n) ∧ (d.map Prod.fst).Nodup

/-- Invariant of the whole table. -/
def TableInv (t : Table) : Prop := ∀ f, DictInv (dictOf t f)

theorem dictInv_nil : DictInv [] :=
  ⟨fun v n h => by simp [alookup] at h, List.nodup_nil⟩

theorem tableInv_init : TableInv initTable := by
  intro f
  rw [dictOf_initTable]
  exact dictInv_nil

theorem dictInv_increment (d : Dict) (v : String) (hd : DictInv d) :
    DictInv (dictIncrement d v) := by
  constructor
  · intro w n h
    rw [alookup_dictIncrement] at h
    by_cases hwv : w = v
    · rw [if_pos hwv] at h
      have hn := Option.some.inj h
      omega
    · rw [if_neg hwv] at h
      exact hd.1 w n h
  · by_cases hc : containsKey d v
    · rw [dictIncrement, if_pos hc]
      have : ((d.map (fun p => if p.1 = v then (p.1, p.2 + 1) else p)).map
          Prod.fst) = d.map Prod.fst := by
        rw [List.map_map]
        apply List.map_congr_left
        intro p hp
        by_cases h : p.1 = v <;> simp [h]
      rw [this]
      exact hd.2
    · rw [dictIncrement, if_neg hc]
      have hvnot : v ∉ d.map Prod.fst := by
        have : alookup d v = none := by
          cases h : alookup d v with
          | none => rfl
          | some x => exact absurd (by simp [containsKey, h]) hc
        exact (alookup_eq_none_iff d v).mp this
      rw [List.map_append]
      rw [List.nodup_append]
      refine ⟨hd.2, List.nodup_singleton v, ?_⟩
      intro a ha hb
      simp at hb
      subst hb
      exact hvnot ha

theorem sumDict_map_incr (d : Dict) (v : String)
    (hnd : (d.map Prod.fst).Nodup) (hc : containsKey d v = true) :
    sumDict (d.map (fun p => if p.1 = v then (p.1, p.2 + 1) else p))
      = sumDict d + 1 := by
  induction d with
  | nil => simp [containsKey, alookup] at hc
  | cons p rest ih =>
    obtain ⟨k, n⟩ := p
    have hnd2 : (k :: rest.map Prod.fst).Nodup := by simpa using hnd
    have hknot : k ∉ rest.map Prod.fst := (List.nodup_cons.mp hnd2).1
    have hndrest : (rest.map Prod.fst).Nodup := (List.nodup_cons.mp hnd2).2
    by_cases hkv : k = v
    · subst hkv
      have hrest : rest.map (fun p : String × Nat =>
          if p.1 = k then (p.1, p.2 + 1) else p) = rest := by
        have h1 : rest.map (fun p : String × Nat =>
            if p.1 = k then (p.1, p.2 + 1) else p) = rest.map (fun p => p) :=
          List.map_congr_left (fun q hq => by
            rw [if_neg]
            intro h
            exact hknot (h ▸ List.mem_map_of_mem Prod.fst hq))
        rw [h1]
        exact List.map_id' rest
      rw [List.map_cons, hrest]
      have hhead : (if ((k, n) : String × Nat).1 = k
          then ((k, n).1, (k, n).2 + 1) else (k, n)) = (k, n + 1) := by
        simp
      rw [hhead]
      simp [sumDict]
      omega
    · have hcrest : containsKey rest v = true := by
        have halt : alookup ((k, n) :: rest) v = alookup rest v := by
          simp [alookup, hkv]
        simpa [containsKey, halt] using hc
      rw [List.map_cons]
      have hhead : (if ((k, n) : String × Nat).1 = v
          then ((k, n).1, (k, n).2 + 1) else (k, n)) = (k, n) := by
        simp [hkv]
      rw [hhead]
      have hsum := ih hndrest hcrest
      simp only [sumDict, List.map_cons, List.sum_cons] at hsum ⊢
      omega

theorem sumDict_increment (d : Dict) (v : String) (hd : DictInv d) :
    sumDict (dictIncrement d v) = sumDict d + 1 := by
  by_cases hc : containsKey d v
  · rw [dictIncrement, if_pos hc]
    exact sumDict_map_incr d v hd.2 hc
  · rw [dictIncrement, if_neg hc]
    simp [sumDict, List.map_append]

theorem dictOf_tableIncrement (t : Table) (f v g : String) :
    dictOf (tableIncrement t f v) g
      = if g = f ∧ containsKey t f = true then dictIncrement (dictOf t f) v
        else dictOf t g := by
  unfold dictOf
  rw [alookup_tableIncrement]
  by_cases hgf : g = f
  · subst hgf
    cases hf : alookup t g with
    | none =>
      have hc : containsKey t g = false := by simp [containsKey, hf]
      simp [hc, hf]
    | some d =>
      have hc : containsKey t g = true := by simp [containsKey, hf]
      simp [hc, hf]
  · simp [hgf]

theorem tableInv_increment (t : Table) (f v : String) (ht : TableInv t) :
    TableInv (tableIncrement t f v) := by
  intro g
  rw [dictOf_tableIncrement]
  by_cases h : g = f ∧ containsKey t f = true
  · rw [if_pos h]
    exact dictInv_increment _ _ (ht f)
  · rw [if_neg h]
    exact ht g

theorem sumField_tableIncrement (t : Table) (f v g : String) (ht : TableInv t) :
    sumField (tableIncrement t f v) g
      = sumField t g + (if g = f ∧ containsKey t f = true then 1 else 0) := by
  show sumDict (dictOf (tableIncrement t f v) g) = _
  rw [dictOf_tableIncrement]
  by_cases h : g = f ∧ containsKey t f = true
  · rw [if_pos h, if_pos h]
    rcases h with ⟨hgf, hcf⟩
    subst hgf
    exact sumDict_increment _ _ (ht g)
  · rw [if_neg h, if_neg h]
    rfl

theorem tableInv_applyIncs (l : List (String × String)) (t : Table)
    (ht : TableInv t) : TableInv (applyIncs l t) := by
  induction l generalizing t with
  | nil => exact ht
  | cons p rest ih =>
    rw [applyIncs_cons]
    exact ih _ (tableInv_increment _ _ _ ht)

theorem sumField_applyIncs (l : List (String × String)) (t : Table)
    (f : String) (ht : TableInv t) :
    sumField (applyIncs l t) f
      = sumField t f
        + (if containsKey t f = true then l.countP (fun p => p.1 == f)
           else 0) := by
  induction l generalizing t with
  | nil => simp [applyIncs]
  | cons p rest ih =>
    rw [applyIncs_cons, ih _ (tableInv_increment _ _ _ ht),
      sumField_tableIncrement _ _ _ _ ht, containsKey_tableIncrement,
      List.countP_cons]
    by_cases hcf : containsKey t f = true
    · by_cases hpf : f = p.1
      · have hcp : containsKey t p.1 = true := hpf ▸ hcf
        simp [hcf, hpf, hcp]
        try omega
      · have hb : (p.1 == f) = false := by
          simp only [beq_eq_false_iff_ne, ne_eq]
          exact fun h => hpf h.symm
        have hno : ¬(f = p.1 ∧ containsKey t p.1 = true) := fun hh => hpf hh.1
        simp [hcf, hno, hb]
        try omega
    · have hno : ¬(f = p.1 ∧ containsKey t p.1 = true) := by
        rintro ⟨h1, h2⟩
        exact hcf (h1 ▸ h2)
      simp [hcf, hno]
      try omega

theorem countP_key_nodup (l : List String) (hl : l.Nodup) (f : String) :
    l.countP (fun k => k == f) = if f ∈ l then 1 else 0 := by
  show l.count f = _
  by_cases hf : f ∈ l
  · rw [if_pos hf]
    exact List.count_eq_one_of_mem hl hf
  · rw [if_neg hf]
    exact List.count_eq_zero_of_not_mem hf

theorem countP_incList_field (e : ExifDict) (f : String) :
    (incList e).countP (fun p => p.1 == f)
      = if f ∈ STATISTIC_KEYS.takeWhile (fun k => containsKey e k) then 1
        else 0 := by
  unfold incList
  rw [List.countP_map]
  exact countP_key_nodup _ (nodup_takeWhile_keys e) f

theorem containsKey_make_statistic (t : Table) (e : Option ExifDict)
    (f : String) : containsKey (make_statistic e t) f = containsKey t f := by
  cases e with
  | none => rfl
  | some e2 => rw [make_statistic_some, containsKey_applyIncs]

theorem tableInv_make_statistic (t : Table) (e : Option ExifDict)
    (ht : TableInv t) : TableInv (make_statistic e t) := by
  cases e with
  | none => exact ht
  | some e2 =>
    rw [make_statistic_some]
    exact tableInv_applyIncs _ _ ht

theorem sumField_make_statistic (t : Table) (e : Option ExifDict)
    (f : String) (ht : TableInv t) (hcf : containsKey t f = true) :
    sumField (make_statistic e t) f
      = sumField t f + (if exifContributes f e = true then 1 else 0) := by
  cases e with
  | none => simp [make_statistic, exifContributes]
  | some e2 =>
    rw [make_statistic_some, sumField_applyIncs _ _ _ ht]
    simp only [hcf, if_true]
    rw [countP_incList_field]
    congr 1
    by_cases hm : f ∈ STATISTIC_KEYS.takeWhile (fun k => containsKey e2 k)
    · have hb : exifContributes f (some e2) = true := by
        simp only [exifContributes, List.contains]
        exact List.elem_eq_true_of_mem hm
      simp [hm, hb]
    · have hb : exifContributes f (some e2) = false := by
        simp only [exifContributes, List.contains]
        cases helem : List.elem f
            (STATISTIC_KEYS.takeWhile (fun k => containsKey e2 k)) with
        | false => rfl
        | true => exact absurd (List.mem_of_elem_eq_true helem) hm
      simp [hm, hb]

theorem containsKey_stepOutcome (t : Table) (o : Outcome) (f : String) :
    containsKey (stepOutcome t o) f = containsKey t f := by
  cases o with
  | ok e => exact containsKey_make_statistic t e f
  | timeout e => exact containsKey_make_statistic t e f
  | interrupt => rfl
  | err => rfl

theorem tableInv_stepOutcome (t : Table) (o : Outcome) (ht : TableInv t) :
    TableInv (stepOutcome t o) := by
  cases o with
  | ok e => exact tableInv_make_statistic t e ht
  | timeout e => exact tableInv_make_statistic t e ht
  | interrupt => exact ht
  | err => exact ht

theorem sumField_stepOutcome (t : Table) (o : Outcome) (f : String)
    (ht : TableInv t) (hcf : containsKey t f = true) :
    sumField (stepOutcome t o) f
      = sumField t f + (if okContributes f o = true then 1 else 0) := by
  cases o with
  | ok e => exact sumField_make_statistic t e f ht hcf
  | timeout e => exact sumField_make_statistic t e f ht hcf
  | interrupt => simp [stepOutcome, okContributes]
  | err => simp [stepOutcome, okContributes]

theorem containsKey_foldl (os : List Outcome) (t : Table) (f : String) :
    containsKey (os.foldl stepOutcome t) f = containsKey t f := by
  induction os generalizing t with
  | nil => rfl
  | cons o os ih =>
    rw [List.foldl_cons, ih, containsKey_stepOutcome]

theorem tableInv_foldl (os : List Outcome) (t : Table) (ht : TableInv t) :
    TableInv (os.foldl stepOutcome t) := by
  induction os generalizing t with
  | nil => exact ht
  | cons o os ih =>
    rw [List.foldl_cons]
    exact ih _ (tableInv_stepOutcome t o ht)

theorem sumField_foldl (os : List Outcome) (t : Table) (f : String)
    (ht : TableInv t) (hcf : containsKey t f = true) :
    sumField (os.foldl stepOutcome t) f
      = sumField t f + os.countP (okContributes f) := by
  induction os generalizing t with
  | nil => simp
  | cons o os ih =>
    rw [List.foldl_cons, List.countP_cons,
      ih _ (tableInv_stepOutcome t o ht)
        (by rw [containsKey_stepOutcome]; exact hcf),
      sumField_stepOutcome t o f ht hcf]
    omega

theorem sumField_of_not_contains (t : Table) (f : String)
    (h : containsKey t f = false) : sumField t f = 0 := by
  have hnone : alookup t f = none := by
    cases hx : alookup t f with
    | none => rfl
    | some d =>
      rw [containsKey, hx] at h
      simp at h
  simp [sumField, dictOf, hnone]

/-- Claim C8: at every point of the run (after any list of per-file task
outcomes), every `(field, value)` key present in the frequency table has
count at least 1, and for every field the sum of its counts is at most (in
fact exactly) the number of files successfully processed for that field,
i.e. the tasks — completed normally or after their `get` timed out — whose
extraction reached and counted that field. -/
theorem c8_invariants (os : List Outcome) :
    (∀ f v n, alookup (dictOf (processTable os) f) v = some n → 1 ≤ n) ∧
    (∀ f, sumField (processTable os) f ≤ os.countP (okContributes f)) := by
  constructor
  · intro f v n h
    exact ((tableInv_foldl os initTable tableInv_init) f).1 v n h
  · intro f
    by_cases hcf : containsKey initTable f = true
    · show sumField (os.foldl stepOutcome initTable) f ≤ _
      rw [sumField_foldl os initTable f tableInv_init hcf]
      have h0 : sumField initTable f = 0 := by
        simp [sumField, dictOf_initTable]
      omega
    · have hcf' : containsKey (processTable os) f = false := by
        rw [show processTable os = os.foldl stepOutcome initTable from rfl,
          containsKey_foldl]
        cases hx : containsKey initTable f with
        | false => rfl
        | true => exact absurd hx hcf
      rw [sumField_of_not_contains _ _ hcf']
      exact Nat.zero_le _

/-- Witness for `c8_invariants`: after one completed file carrying only a
capture date, the recorded count is 1 ≥ 1 and the `Model` field's sum is
bounded by its contributing files. -/
theorem c8_witness :
    (1 : Nat) ≤ 1 ∧
    sumField (processTable [Outcome.ok (some [("DateTimeOriginal", "x")])])
        "Model"
      ≤ [Outcome.ok (some [("DateTimeOriginal", "x")])].countP
          (okContributes "Model") :=
  ⟨(c8_invariants [Outcome.ok (some [("DateTimeOriginal", "x")])]).1
      "DateTimeOriginal" "x" 1 (by decide),
    (c8_invariants [Outcome.ok (some [("DateTimeOriginal", "x")])]).2 "Model"⟩

/-! ## Claim C9: null stripping -/

theorem incCount_mem (e : ExifDict) (f v : String)
    (hm : f ∈ STATISTIC_KEYS.takeWhile (fun k => containsKey e k))
    (hv : normValue f ((alookup e f).getD "") = v) :
    incCount (incList e) f v = 1 := by
  rw [incCount_incList]
  have hb : (normValue f ((alookup e f).getD "") == v) = true := by
    simp [hv]
  simp [hm, hb]

theorem mem_prefix_model (e : ExifDict)
    (h1 : containsKey e "DateTimeOriginal" = true)
    (h2 : containsKey e "Model" = true) :
    "Model" ∈ STATISTIC_KEYS.takeWhile (fun k => containsKey e k) := by
  rw [takeWhile_keys_capture e h1]
  have htail : ["Model", "LensModel", "FNumber", "ExposureTime",
      "ISOSpeedRatings", "FocalLength"].takeWhile (fun k => containsKey e k)
      = "Model" :: (["LensModel", "FNumber", "ExposureTime",
          "ISOSpeedRatings", "FocalLength"].takeWhile
            (fun k => containsKey e k)) := by
    rw [List.takeWhile_cons, h2]
    simp
  rw [htail]
  exact List.mem_cons_of_mem _ (List.mem_cons_self _ _)

theorem stripNull_split (s : String) :
    s.data.dropWhile (fun ch => ch == nullChar)
      = (stripNull s).data
        ++ ((s.data.dropWhile (fun ch => ch == nullChar)).reverse.takeWhile
            (fun ch => ch == nullChar)).reverse := by
  show _ = ((s.data.dropWhile (fun ch => ch == nullChar)).reverse.dropWhile
      (fun ch => ch == nullChar)).reverse ++ _
  conv_lhs => rw [← List.reverse_reverse
    (s.data.dropWhile (fun ch => ch == nullChar))]
  conv_lhs => rw [← List.takeWhile_append_dropWhile (fun ch => ch == nullChar)
    (s.data.dropWhile (fun ch => ch == nullChar)).reverse]
  rw [List.reverse_append]

theorem stripNull_decomposition (s : String) :
    ∃ a b : List Char,
      s.data = a ++ (stripNull s).data ++ b ∧
      (∀ c ∈ a, (c == nullChar) = true) ∧
      (∀ c ∈ b, (c == nullChar) = true) ∧
      (∀ c, (stripNull s).data.head? = some c → (c == nullChar) = false) ∧
      (∀ c, (stripNull s).data.getLast? = some c → (c == nullChar) = false) := by
  refine ⟨s.data.takeWhile (fun ch => ch == nullChar),
    ((s.data.dropWhile (fun ch => ch == nullChar)).reverse.takeWhile
      (fun ch => ch == nullChar)).reverse, ?_, ?_, ?_, ?_, ?_⟩
  · rw [List.append_assoc, ← stripNull_split,
      List.takeWhile_append_dropWhile]
  · intro c hc
    have h2 := List.mem_takeWhile_imp hc
    exact h2
  · intro c hc
    have h2 := List.mem_takeWhile_imp (List.mem_reverse.mp hc)
    exact h2
  · intro c hc
    have hhead : (s.data.dropWhile (fun ch => ch == nullChar)).head?
        = some c := by
      rw [stripNull_split]
      cases htrim : (stripNull s).data with
      | nil =>
        rw [htrim] at hc
        simp at hc
      | cons x xs =>
        rw [htrim] at hc
        simp only [List.head?_cons] at hc
        simp only [List.cons_append, List.head?_cons]
        exact hc
    have hnot := List.head?_dropWhile_not (fun ch => ch == nullChar) s.data
    rw [hhead] at hnot
    exact hnot
  · intro c hc
    have hrev : (stripNull s).data.reverse
        = (s.data.dropWhile (fun ch => ch == nullChar)).reverse.dropWhile
            (fun ch => ch == nullChar) := by
      show (((s.data.dropWhile (fun ch => ch == nullChar)).reverse.dropWhile
          (fun ch => ch == nullChar)).reverse).reverse = _
      rw [List.reverse_reverse]
    have hhead : ((s.data.dropWhile (fun ch => ch == nullChar)).reverse.dropWhile
        (fun ch => ch == nullChar)).head? = some c := by
      rw [← hrev, List.head?_reverse]
      exact hc
    have hnot := List.head?_dropWhile_not (fun ch => ch == nullChar)
      (s.data.dropWhile (fun ch => ch == nullChar)).reverse
    rw [hhead] at hnot
    exact hnot

/-- Claim C9, counterexample: a `Model` value with an interior null
character is stored unchanged — Python `str.strip("\x00")` removes only
leading and trailing null characters, so the stored value still contains
`'\x00'`. -/
theorem c9_counterexample :
    countOf
        (make_statistic
          (some [("DateTimeOriginal", "d"), ("Model", "a\x00b")]) initTable)
        "Model" "a\x00b" = 1 ∧
    nullChar ∈ ("a\x00b" : String).data := by
  decide

/-- Claim C9, amended: for tracked fields other than `DateTimeOriginal` the
stored value is the stringified tag value with its leading and trailing null
characters stripped (interior nulls are preserved): the original string
splits as null-prefix ++ stored ++ null-suffix, and the stored value neither
starts nor ends with a null character. -/
theorem c9_amended :
    (∀ e t raw, alookup e "Model" = some raw →
        containsKey e "DateTimeOriginal" = true →
        containsKey t "Model" = true →
        countOf (make_statistic (some e) t) "Model" (stripNull raw)
          = countOf t "Model" (stripNull raw) + 1) ∧
    (∀ s : String, ∃ a b : List Char,
        s.data = a ++ (stripNull s).data ++ b ∧
        (∀ c ∈ a, (c == nullChar) = true) ∧
        (∀ c ∈ b, (c == nullChar) = true) ∧
        (∀ c, (stripNull s).data.head? = some c → (c == nullChar) = false) ∧
        (∀ c, (stripNull s).data.getLast? = some c →
          (c == nullChar) = false)) ∧
    stripNull "\x00\x00a\x00b\x00" = "a\x00b" := by
  refine ⟨?_, stripNull_decomposition, by decide⟩
  intro e t raw he hd hct
  have hce : containsKey e "Model" = true := by simp [containsKey, he]
  rw [make_statistic_some, countOf_applyIncs _ _ _ _ hct,
    incCount_mem e "Model" (stripNull raw) (mem_prefix_model e hd hce)
      (by rw [he]; simp [normValue])]

/-- Witness for `c9_amended` at a concrete lens value with an interior and a
trailing null. -/
theorem c9_amended_witness :
    countOf
        (make_statistic
          (some [("DateTimeOriginal", "d"), ("Model", "a\x00b\x00")])
          initTable)
        "Model" (stripNull "a\x00b\x00")
      = countOf initTable "Model" (stripNull "a\x00b\x00") + 1 :=
  c9_amended.1 [("DateTimeOriginal", "d"), ("Model", "a\x00b\x00")] initTable
    "a\x00b\x00" (by decide) (by decide) (by decide)

/-! ## Renderer lemmas -/

theorem decorate_sound {κ : Type} (parse : String → Option κ)
    (items : List (String × Nat)) (dec : List (κ × String × Nat))
    (h : decorate parse items = some dec) :
    (∀ p ∈ dec, parse p.2.1 = some p.1) ∧ dec.map Prod.snd = items := by
  induction items generalizing dec with
  | nil =>
    simp only [decorate, Option.some.injEq] at h
    subst h
    simp
  | cons it rest ih =>
    simp only [decorate] at h
    cases hp : parse it.1 with
    | none =>
      rw [hp] at h
      simp at h
    | some key =>
      rw [hp] at h
      cases hr : decorate parse rest with
      | none =>
        rw [hr] at h
        simp at h
      | some dec2 =>
        rw [hr] at h
        simp only [Option.map_some', Option.some.injEq] at h
        subst h
        obtain ⟨ih1, ih2⟩ := ih dec2 hr
        constructor
        · intro p hp2
          rcases List.mem_cons.mp hp2 with h | h
          · subst h
            exact hp
          · exact ih1 p h
        · simp [ih2]

theorem decorate_none {κ : Type} (parse : String → Option κ)
    (items : List (String × Nat)) (v : String) (c : Nat)
    (hm : (v, c) ∈ items) (hv : parse v = none) :
    decorate parse items = none := by
  induction items with
  | nil => simp at hm
  | cons it rest ih =>
    rcases List.mem_cons.mp hm with h | h
    · simp only [decorate, ← h, hv]
    · simp only [decorate]
      cases hp : parse it.1 with
      | none => rfl
      | some key => rw [ih h]; rfl

theorem chartOf_of_decorate_none {κ : Type} (le : κ → κ → Prop)
    [DecidableRel le] (parse : String → Option κ)
    (relabel : κ → String → String) (items : List (String × Nat))
    (h : decorate parse items = none) :
    chartOf le parse relabel items = none := by
  unfold chartOf
  rw [h]

theorem chartOf_of_decorate_some {κ : Type} (le : κ → κ → Prop)
    [DecidableRel le] (parse : String → Option κ)
    (relabel : κ → String → String) (items : List (String × Nat))
    (dec : List (κ × String × Nat)) (h : decorate parse items = some dec) :
    chartOf le parse relabel items
      = if dec.isEmpty then none
        else some ((List.insertionSort (fun a b => le a.1 b.1) dec).map
          (fun p => (relabel p.1 p.2.1, p.2.2))) := by
  unfold chartOf
  rw [h]

theorem chartOf_sorted {κ : Type} (le : κ → κ → Prop) [DecidableRel le]
    [IsTotal κ le] [IsTrans κ le]
    (parse : String → Option κ) (relabel : κ → String → String)
    {items : List (String × Nat)} {ch : List (String × Nat)}
    (h : chartOf le parse relabel items = some ch) :
    ∃ dec, decorate parse items = some dec ∧
      ch = (List.insertionSort (fun a b => le a.1 b.1) dec).map
        (fun p => (relabel p.1 p.2.1, p.2.2)) ∧
      (List.insertionSort (fun a b => le a.1 b.1) dec).Pairwise
        (fun a b => le a.1 b.1) ∧
      (∀ p ∈ List.insertionSort (fun a b => le a.1 b.1) dec,
        parse p.2.1 = some p.1) := by
  cases hd : decorate parse items with
  | none =>
    rw [chartOf_of_decorate_none le parse relabel items hd] at h
    exact absurd h (by simp)
  | some dec =>
    rw [chartOf_of_decorate_some le parse relabel items dec hd] at h
    by_cases he : dec.isEmpty
    · rw [if_pos he] at h
      simp at h
    · rw [if_neg he] at h
      haveI : IsTotal (κ × String × Nat) (fun a b => le a.1 b.1) :=
        ⟨fun a b => IsTotal.total a.1 b.1⟩
      haveI : IsTrans (κ × String × Nat) (fun a b => le a.1 b.1) :=
        ⟨fun a b c h1 h2 => IsTrans.trans a.1 b.1 c.1 h1 h2⟩
      refine ⟨dec, rfl, (Option.some.inj h).symm,
        List.sorted_insertionSort _ dec, ?_⟩
      intro p hp
      have hmem : p ∈ dec := (List.perm_insertionSort _ dec).mem_iff.mp hp
      exact (decorate_sound parse items dec hd).1 p hmem

theorem chartOf_pairwise_id {κ : Type} (le : κ → κ → Prop) [DecidableRel le]
    [IsTotal κ le] [IsTrans κ le] (parse : String → Option κ)
    {items : List (String × Nat)} {ch : List (String × Nat)}
    (h : chartOf le parse (fun _ v => v) items = some ch) :
    ch.Pairwise (fun a b => ∃ x y, parse a.1 = some x ∧ parse b.1 = some y
      ∧ le x y) := by
  obtain ⟨dec, hdec, hch, hsort, hparse⟩ := chartOf_sorted le parse _ h
  subst hch
  rw [List.pairwise_map]
  apply List.Pairwise.imp_of_mem ?_ hsort
  intro a b ha hb hle
  exact ⟨a.1, b.1, hparse a ha, hparse b hb, hle⟩

theorem chartOf_pairwise_str {items : List (String × Nat)}
    {ch : List (String × Nat)}
    (h : chartOf (fun a b : String => a ≤ b) some (fun _ v => v) items
      = some ch) :
    ch.Pairwise (fun a b => a.1 ≤ b.1) := by
  have hp := chartOf_pairwise_id (fun a b : String => a ≤ b) some h
  apply List.Pairwise.imp ?_ hp
  intro a b hab
  obtain ⟨x, y, hx, hy, hle⟩ := hab
  rw [← Option.some.inj hx, ← Option.some.inj hy] at hle
  exact hle

/-! Equations selecting the sort key per field, mirroring the `if`/`elif`
chain at lines 120–128. -/

theorem plotField_exposure (items : List (String × Nat)) :
    plotField "ExposureTime" items
      = chartOf (fun a b : ℚ => a ≤ b) parseFraction
          (fun q _ => showFraction (limit_denominator q)) items := by
  unfold plotField
  rw [if_pos rfl]

theorem plotField_fnumber (items : List (String × Nat)) :
    plotField "FNumber" items
      = chartOf (fun a b : ℚ => a ≤ b) parseFloat (fun _ v => v) items := by
  unfold plotField
  rw [if_neg (by decide), if_pos (Or.inl rfl)]

theorem plotField_focal (items : List (String × Nat)) :
    plotField "FocalLength" items
      = chartOf (fun a b : ℚ => a ≤ b) parseFloat (fun _ v => v) items := by
  unfold plotField
  rw [if_neg (by decide), if_pos (Or.inr rfl)]

theorem plotField_iso (items : List (String × Nat)) :
    plotField "ISOSpeedRatings" items
      = chartOf (fun a b : Int => a ≤ b) parseInt (fun _ v => v) items := by
  unfold plotField
  rw [if_neg (by decide), if_neg (by decide), if_pos rfl]

theorem plotField_date (items : List (String × Nat)) :
    plotField "DateTimeOriginal" items
      = chartOf dateLe parseDate (fun _ v => v) items := by
  unfold plotField
  rw [if_neg (by decide), if_neg (by decide), if_neg (by decide), if_pos rfl]

theorem plotField_model (items : List (String × Nat)) :
    plotField "Model" items
      = chartOf (fun a b : String => a ≤ b) some (fun _ v => v) items := by
  unfold plotField
  rw [if_neg (by decide), if_neg (by decide), if_neg (by decide),
    if_neg (by decide)]

theorem plotField_lensmodel (items : List (String × Nat)) :
    plotField "LensModel" items
      = chartOf (fun a b : String => a ≤ b) some (fun _ v => v) items := by
  unfold plotField
  rw [if_neg (by decide), if_neg (by decide), if_neg (by decide),
    if_neg (by decide)]

/-! ## Claims C6, C10, C7 -/

/-- Claim C6: for each rendered field the `(label, count)` sequence is
ordered by the field-specific comparator: `DateTimeOriginal` (CaptureDate)
chronologically ascending as a calendar date, `FNumber` (Aperture) and
`FocalLength` ascending by numeric value, `ISOSpeedRatings` ascending as an
integer, and `Model` / `LensModel` ascending in default string order. -/
theorem c6_field_sort_orders :
    (∀ d ch, plotField "DateTimeOriginal" d = some ch →
      ch.Pairwise (fun a b => ∃ x y, parseDate a.1 = some x ∧
        parseDate b.1 = some y ∧ dateLe x y)) ∧
    (∀ d ch, plotField "FNumber" d = some ch →
      ch.Pairwise (fun a b => ∃ x y, parseFloat a.1 = some x ∧
        parseFloat b.1 = some y ∧ x ≤ y)) ∧
    (∀ d ch, plotField "FocalLength" d = some ch →
      ch.Pairwise (fun a b => ∃ x y, parseFloat a.1 = some x ∧
        parseFloat b.1 = some y ∧ x ≤ y)) ∧
    (∀ d ch, plotField "ISOSpeedRatings" d = some ch →
      ch.Pairwise (fun a b => ∃ x y, parseInt a.1 = some x ∧
        parseInt b.1 = some y ∧ x ≤ y)) ∧
    (∀ d ch, plotField "Model" d = some ch →
      ch.Pairwise (fun a b => a.1 ≤ b.1)) ∧
    (∀ d ch, plotField "LensModel" d = some ch →
      ch.Pairwise (fun a b => a.1 ≤ b.1)) := by
  refine ⟨?_, ?_, ?_, ?_, ?_, ?_⟩
  · intro d ch h
    rw [plotField_date] at h
    exact chartOf_pairwise_id dateLe parseDate h
  · intro d ch h
    rw [plotField_fnumber] at h
    exact chartOf_pairwise_id (fun a b : ℚ => a ≤ b) parseFloat h
  · intro d ch h
    rw [plotField_focal] at h
    exact chartOf_pairwise_id (fun a b : ℚ => a ≤ b) parseFloat h
  · intro d ch h
    rw [plotField_iso] at h
    exact chartOf_pairwise_id (fun a b : Int => a ≤ b) parseInt h
  · intro d ch h
    rw [plotField_model] at h
    exact chartOf_pairwise_str h
  · intro d ch h
    rw [plotField_lensmodel] at h
    exact chartOf_pairwise_str h

/-- Witness for `c6_field_sort_orders` at concrete one-field charts. -/
theorem c6_witness :
    List.Pairwise (fun a b : String × Nat => a.1 ≤ b.1) [("b", 1)] ∧
    List.Pairwise
      (fun a b : String × Nat => ∃ x y, parseInt a.1 = some x ∧
        parseInt b.1 = some y ∧ x ≤ y) [("100", 2), ("800", 1)] :=
  ⟨c6_field_sort_orders.2.2.2.2.1 [("b", 1)] [("b", 1)] (by decide),
    c6_field_sort_orders.2.2.2.1 [("800", 1), ("100", 2)]
      [("100", 2), ("800", 1)] (by decide)⟩

/-- The chart list produced by `plot_statistic_dict` is exactly one chart
per field of the longest prefix of the table on which the per-field
computation succeeds, and the exception flag is set as soon as any field
fails. -/
theorem plot_statistic_dict_prefix_charts (t : Table) :
    plot_statistic_dict t
      = ((t.takeWhile (fun kd => (plotField kd.1 kd.2).isSome)).filterMap
          (fun kd => plotField kd.1 kd.2),
        !(t.all (fun kd => (plotField kd.1 kd.2).isSome))) := by
  induction t with
  | nil => rfl
  | cons kd rest ih =>
    obtain ⟨k, d⟩ := kd
    cases hp : plotField k d with
    | none =>
      simp [plot_statistic_dict, hp, List.takeWhile_cons, List.all_cons]
    | some ch =>
      simp [plot_statistic_dict, hp, List.takeWhile_cons, List.all_cons, ih,
        List.filterMap_cons]

/-- Claim C10: a stored value failing its field-specific parse makes the
field's chart computation raise (`ExposureTime` not parseable as a
fraction, non-numeric `FNumber`/`FocalLength`, non-integer
`ISOSpeedRatings`, `DateTimeOriginal` not an ISO date), and
`plot_statistic_dict` then produces exactly the charts of the fields
iterated before the offending one and propagates the exception — there is
no skip-and-warn fallback. -/
theorem c10_parse_failure_aborts :
    (∀ d v c, (v, c) ∈ d → parseFraction v = none →
      plotField "ExposureTime" d = none) ∧
    (∀ d v c, (v, c) ∈ d → parseFloat v = none →
      plotField "FNumber" d = none ∧ plotField "FocalLength" d = none) ∧
    (∀ d v c, (v, c) ∈ d → parseInt v = none →
      plotField "ISOSpeedRatings" d = none) ∧
    (∀ d v c, (v, c) ∈ d → parseDate v = none →
      plotField "DateTimeOriginal" d = none) ∧
    (∀ t, plot_statistic_dict t
      = ((t.takeWhile (fun kd => (plotField kd.1 kd.2).isSome)).filterMap
          (fun kd => plotField kd.1 kd.2),
        !(t.all (fun kd => (plotField kd.1 kd.2).isSome)))) := by
  refine ⟨?_, ?_, ?_, ?_, plot_statistic_dict_prefix_charts⟩
  · intro d v c hm hv
    rw [plotField_exposure]
    exact chartOf_of_decorate_none _ _ _ _ (decorate_none _ _ v c hm hv)
  · intro d v c hm hv
    constructor
    · rw [plotField_fnumber]
      exact chartOf_of_decorate_none _ _ _ _ (decorate_none _ _ v c hm hv)
    · rw [plotField_focal]
      exact chartOf_of_decorate_none _ _ _ _ (decorate_none _ _ v c hm hv)
  · intro d v c hm hv
    rw [plotField_iso]
    exact chartOf_of_decorate_none _ _ _ _ (decorate_none _ _ v c hm hv)
  · intro d v c hm hv
    rw [plotField_date]
    exact chartOf_of_decorate_none _ _ _ _ (decorate_none _ _ v c hm hv)

/-- Witness for `c10_parse_failure_aborts`: a non-integer ISO value aborts
its chart. -/
theorem c10_witness :
    plotField "ISOSpeedRatings" [("100", 2), ("abc", 1)] = none :=
  c10_parse_failure_aborts.2.2.1 [("100", 2), ("abc", 1)] "abc" 1 (by decide)
    (by decide)

/-- Claim C7, counterexample: a table whose `DateTimeOriginal` field has one
entry but whose other fields are empty (produced by one file carrying only a
capture date) renders only one chart, not one per tracked field:
`plot_statistic_dict` raises on the empty `Model` dictionary
(`zip(*sorted([]))` cannot be unpacked). -/
theorem c7_counterexample :
    (dictOf
        (processTable
          [Outcome.ok (some [("DateTimeOriginal", "2023:05:01 12:30:00")])])
        "DateTimeOriginal").length = 1 ∧
    cliRender
        (processTable
          [Outcome.ok (some [("DateTimeOriginal", "2023:05:01 12:30:00")])])
      = some ([[("2023-05-01", 1)]], true) := by
  decide

/-- Claim C7, amended: if the finished table's `DateTimeOriginal` field has
zero entries the whole rendering step is skipped and no chart is produced;
if it has at least one entry `plot_statistic_dict` is invoked, and it
produces one chart per tracked field exactly when every field's chart
computation succeeds (nonempty dictionary, all values parse) — otherwise it
stops with an exception at the first failing field. -/
theorem c7_amended :
    (∀ t, (dictOf t "DateTimeOriginal").length = 0 → cliRender t = none) ∧
    (∀ t, 0 < (dictOf t "DateTimeOriginal").length →
      cliRender t = some (plot_statistic_dict t)) ∧
    (∀ t, (∀ kd ∈ t, (plotField kd.1 kd.2).isSome = true) →
      (plot_statistic_dict t).1.length = t.length
        ∧ (plot_statistic_dict t).2 = false) := by
  refine ⟨?_, ?_, ?_⟩
  · intro t h
    unfold cliRender
    rw [if_neg]
    omega
  · intro t h
    unfold cliRender
    rw [if_pos h]
  · intro t hall
    induction t with
    | nil => exact ⟨rfl, rfl⟩
    | cons kd rest ih =>
      have hkd := hall kd (List.mem_cons_self kd rest)
      obtain ⟨ch, hch⟩ := Option.isSome_iff_exists.mp hkd
      obtain ⟨ih1, ih2⟩ := ih (fun q hq => hall q (List.mem_cons_of_mem kd hq))
      obtain ⟨k, d⟩ := kd
      constructor
      · simp [plot_statistic_dict, hch, ih1]
      · simp [plot_statistic_dict, hch, ih2]

/-- Witness for `c7_amended`: the empty table has no `DateTimeOriginal`
entries, so rendering is skipped. -/
theorem c7_amended_witness : cliRender initTable = none :=
  c7_amended.1 initTable (by decide)

/-! ## Claim C4: `limit_denominator` bound and `ExposureTime` rendering -/

theorem fdiv_sub_bounds (n d : Int) (hd : 0 < d) :
    0 ≤ n - (Int.fdiv n d) * d ∧ n - (Int.fdiv n d) * d < d := by
  have ha : Int.fdiv n d = n / d := Int.fdiv_eq_ediv n (le_of_lt hd)
  have h1 : 0 ≤ n % d := Int.emod_nonneg n (ne_of_gt hd)
  have h2 : n % d < d := Int.emod_lt_of_pos n hd
  have h3 : n % d = n - d * (n / d) := Int.emod_def n d
  have key : n - (n / d) * d = n % d := by rw [h3]; ring
  constructor
  · rw [ha, key]
    exact h1
  · rw [ha, key]
    exact h2

theorem ldLoop_q_bounds (fuel : Nat) :
    ∀ p0 q0 p1 q1 n d maxd : Int,
      ((0 ≤ q0 ∧ 1 ≤ q1 ∧ q0 ≤ maxd ∧ q1 ≤ maxd ∧ 0 ≤ d ∧ d < n) ∨
        (q0 = 1 ∧ q1 = 0 ∧ 0 < d ∧ 1 ≤ maxd ∧ 1 ≤ fuel)) →
      0 ≤ (ldLoop fuel p0 q0 p1 q1 n d maxd).2.1 ∧
      1 ≤ (ldLoop fuel p0 q0 p1 q1 n d maxd).2.2.2 ∧
      (ldLoop fuel p0 q0 p1 q1 n d maxd).2.1 ≤ maxd ∧
      (ldLoop fuel p0 q0 p1 q1 n d maxd).2.2.2 ≤ maxd := by
  induction fuel with
  | zero =>
    intro p0 q0 p1 q1 n d maxd h
    rcases h with h | h
    · exact ⟨h.1, h.2.1, h.2.2.1, h.2.2.2.1⟩
    · exact absurd h.2.2.2.2 (by omega)
  | succ fuel ih =>
    intro p0 q0 p1 q1 n d maxd h
    by_cases hd : d = 0
    · have hstep : ldLoop (fuel + 1) p0 q0 p1 q1 n d maxd = (p0, q0, p1, q1) := by
        simp [ldLoop, hd]
      rw [hstep]
      rcases h with h | h
      · exact ⟨h.1, h.2.1, h.2.2.1, h.2.2.2.1⟩
      · exact absurd hd (by omega)
    · have hstep : ldLoop (fuel + 1) p0 q0 p1 q1 n d maxd
          = if maxd < q0 + (Int.fdiv n d) * q1 then (p0, q0, p1, q1)
            else ldLoop fuel p1 q1 (p0 + (Int.fdiv n d) * p1)
              (q0 + (Int.fdiv n d) * q1) d (n - (Int.fdiv n d) * d) maxd := by
        simp [ldLoop, hd]
      rw [hstep]
      rcases h with h | h
      · obtain ⟨hq0, hq1, hq0m, hq1m, hd0, hdn⟩ := h
        have hdpos : 0 < d := lt_of_le_of_ne hd0 (Ne.symm hd)
        have ha : Int.fdiv n d = n / d := Int.fdiv_eq_ediv n (le_of_lt hdpos)
        have ha1 : 1 ≤ Int.fdiv n d := by
          rw [ha, Int.le_ediv_iff_mul_le hdpos]
          omega
        have haq : 1 ≤ (Int.fdiv n d) * q1 := by nlinarith
        by_cases hbr : maxd < q0 + (Int.fdiv n d) * q1
        · rw [if_pos hbr]
          exact ⟨hq0, hq1, hq0m, hq1m⟩
        · rw [if_neg hbr]
          have hmod := fdiv_sub_bounds n d hdpos
          apply ih
          left
          refine ⟨by linarith, by linarith, hq1m, by linarith, hmod.1, hmod.2⟩
      · obtain ⟨hq0e, hq1e, hdpos, hmaxd, _⟩ := h
        subst hq0e
        subst hq1e
        have hz : (1 : Int) + (Int.fdiv n d) * 0 = 1 := by ring
        rw [hz]
        rw [if_neg (by omega)]
        have hmod := fdiv_sub_bounds n d hdpos
        apply ih
        left
        exact ⟨by omega, by omega, by omega, hmaxd, hmod.1, hmod.2⟩

theorem den_intCast_div_le (a b : Int) (hb1 : 1 ≤ b) (hbm : b ≤ 1000000) :
    (((a : ℚ)) / ((b : ℚ))).den ≤ 1000000 := by
  rw [← Rat.divInt_eq_div]
  have hdvd := Rat.den_dvd a b
  have hle : (((Rat.divInt a b).den : Int)) ≤ b := Int.le_of_dvd (by omega) hdvd
  have : (((Rat.divInt a b).den : Int)) ≤ 1000000 := le_trans hle hbm
  exact_mod_cast this

theorem limitDenomCore_den_le (q : ℚ) (r : Int × Int × Int × Int)
    (h0 : 0 ≤ r.2.1) (h1 : 1 ≤ r.2.2.2) (h0m : r.2.1 ≤ 1000000)
    (h1m : r.2.2.2 ≤ 1000000) :
    (limitDenomCore q r).den ≤ 1000000 := by
  have hk0 : 0 ≤ ldK r := by
    unfold ldK
    rw [Int.fdiv_eq_ediv _ (by omega)]
    exact Int.ediv_nonneg (by omega) (by omega)
  have hkq : ldK r * r.2.2.2 ≤ 1000000 - r.2.1 := by
    unfold ldK
    rw [Int.fdiv_eq_ediv _ (by omega)]
    exact Int.ediv_mul_le _ (by omega)
  have hden1 : 1 ≤ r.2.1 + ldK r * r.2.2.2 := by
    by_cases hq0 : r.2.1 = 0
    · have hk1 : 1 ≤ ldK r := by
        unfold ldK
        rw [Int.fdiv_eq_ediv _ (by omega), hq0]
        rw [Int.le_ediv_iff_mul_le (by omega)]
        omega
      nlinarith
    · have hkq1 : 0 ≤ ldK r * r.2.2.2 := by nlinarith
      omega
  have hden1m : r.2.1 + ldK r * r.2.2.2 ≤ 1000000 := by omega
  unfold limitDenomCore
  by_cases hbr : |ldBound2 r - q| ≤ |ldBound1 r - q|
  · rw [if_pos hbr]
    unfold ldBound2
    exact den_intCast_div_le _ _ h1 h1m
  · rw [if_neg hbr]
    unfold ldBound1
    exact den_intCast_div_le _ _ hden1 hden1m

theorem limit_denominator_den_le (q : ℚ) :
    (limit_denominator q).den ≤ 1000000 := by
  unfold limit_denominator
  by_cases h : ((q.den : Int) ≤ 1000000)
  · rw [if_pos h]
    exact_mod_cast h
  · rw [if_neg h]
    have hdpos : 0 < (q.den : Int) := by
      exact_mod_cast q.pos
    have hb := ldLoop_q_bounds q.den 0 1 1 0 q.num (q.den : Int) 1000000
      (Or.inr ⟨rfl, rfl, hdpos, by omega, by
        have := q.pos
        omega⟩)
    exact limitDenomCore_den_le q _ hb.1 hb.2.1 hb.2.2.1 hb.2.2.2

/-- Claim C4: `ExposureTime` rendering sorts ascending by the mathematical
value of the stored exposure fraction, not lexicographically — for the
values `"1/200"`, `"1/60"`, `"1/1000"` the rendering order is
`1/1000, 1/200, 1/60` — and each displayed label is the value rendered by
`Fraction.limit_denominator()` as a fraction in lowest terms whose
denominator is bounded by `1000000`. -/
theorem c4_exposure_rendering :
    plotField "ExposureTime" [("1/200", 5), ("1/60", 3), ("1/1000", 2)]
      = some [("1/1000", 2), ("1/200", 5), ("1/60", 3)] ∧
    (∀ d ch, plotField "ExposureTime" d = some ch →
      ∃ dec, decorate parseFraction d = some dec ∧
        (List.insertionSort (fun a b : ℚ × String × Nat => a.1 ≤ b.1)
          dec).Pairwise (fun a b => a.1 ≤ b.1) ∧
        (∀ p ∈ List.insertionSort (fun a b : ℚ × String × Nat => a.1 ≤ b.1)
          dec, parseFraction p.2.1 = some p.1) ∧
        ch = (List.insertionSort (fun a b : ℚ × String × Nat => a.1 ≤ b.1)
          dec).map (fun p => (showFraction (limit_denominator p.1), p.2.2))) ∧
    (∀ q : ℚ, (limit_denominator q).den ≤ 1000000) ∧
    (∀ q : ℚ, Nat.Coprime (limit_denominator q).num.natAbs
      (limit_denominator q).den) := by
  refine ⟨?_, ?_, limit_denominator_den_le,
    fun q => (limit_denominator q).reduced⟩
  · rw [plotField_exposure]
    have e200 : parseFraction "1/200" = some (Rat.mk' 1 200) := by
      have h1 : parseFraction "1/200"
          = some (((1 : Int) : ℚ) * ((1 : Nat) : ℚ) / ((200 : Nat) : ℚ)) := rfl
      rw [h1]
      norm_num [Rat.mk'_eq_divInt, Rat.divInt_eq_div]
    have e60 : parseFraction "1/60" = some (Rat.mk' 1 60) := by
      have h1 : parseFraction "1/60"
          = some (((1 : Int) : ℚ) * ((1 : Nat) : ℚ) / ((60 : Nat) : ℚ)) := rfl
      rw [h1]
      norm_num [Rat.mk'_eq_divInt, Rat.divInt_eq_div]
    have e1000 : parseFraction "1/1000" = some (Rat.mk' 1 1000) := by
      have h1 : parseFraction "1/1000"
          = some (((1 : Int) : ℚ) * ((1 : Nat) : ℚ) / ((1000 : Nat) : ℚ)) := rfl
      rw [h1]
      norm_num [Rat.mk'_eq_divInt, Rat.divInt_eq_div]
    have hdec : decorate parseFraction
        [("1/200", 5), ("1/60", 3), ("1/1000", 2)]
        = some [(Rat.mk' 1 200, ("1/200", 5)), (Rat.mk' 1 60, ("1/60", 3)),
            (Rat.mk' 1 1000, ("1/1000", 2))] := by
      simp [decorate, e200, e60, e1000]
    rw [chartOf_of_decorate_some _ _ _ _ _ hdec, if_neg (by decide)]
    exact congrArg some (by decide)
  · intro d ch h
    rw [plotField_exposure] at h
    obtain ⟨dec, hdec, hch, hsort, hparse⟩ :=
      chartOf_sorted (fun a b : ℚ => a ≤ b) parseFraction _ h
    exact ⟨dec, hdec, hsort, hparse, hch⟩

/-- Witness for `c4_exposure_rendering` at the spec's concrete input. -/
theorem c4_witness :
    ∃ dec, decorate parseFraction [("1/200", 5), ("1/60", 3), ("1/1000", 2)]
        = some dec ∧
      (List.insertionSort (fun a b : ℚ × String × Nat => a.1 ≤ b.1)
        dec).Pairwise (fun a b => a.1 ≤ b.1) ∧
      (∀ p ∈ List.insertionSort (fun a b : ℚ × String × Nat => a.1 ≤ b.1)
        dec, parseFraction p.2.1 = some p.1) ∧
      [("1/1000", 2), ("1/200", 5), ("1/60", 3)]
        = (List.insertionSort (fun a b : ℚ × String × Nat => a.1 ≤ b.1)
            dec).map
            (fun p => (showFraction (limit_denominator p.1), p.2.2)) :=
  c4_exposure_rendering.2.1 [("1/200", 5), ("1/60", 3), ("1/1000", 2)]
    [("1/1000", 2), ("1/200", 5), ("1/60", 3)] c4_exposure_rendering.1

end ExifCount
